import Mathlib

/-!
Shallow embedding of the document link-rewrite and entity-annotation engine
of the obsidian-longhand plugin (`rewriteNoteLinks` and `wikilinkEntities`).

Text is modelled as `List Char`, one element per code unit of the JavaScript
string (all scenarios below are ASCII, where the two notions agree), and
JavaScript `String.prototype.slice` clamping is mirrored by `List.take` /
`List.drop`.  External collaborators (the metadata cache's occurrence lists,
`getFirstLinkpathDest`, `fileToLinktext`, the vault) are passed in as data
and function parameters, exactly as the specification treats them.
-/

/-- One pending edit of `rewriteNoteLinks`: the loops push
`{ start: number; end: number; newText: string }` records.  `end` is a Lean
keyword, so that field is named `stop`. -/
structure EditOp where
  start : Nat
  stop : Nat
  newText : List Char
deriving DecidableEq

/-- One right-to-left splice step of `rewriteNoteLinks`, line 192:
`updated = updated.slice(0, op.start) + op.newText + updated.slice(op.end)`.
`slice` clamps out-of-range indices, exactly like `take`/`drop`. -/
def applyOp (s : List Char) (op : EditOp) : List Char :=
  s.take op.start ++ op.newText ++ s.drop op.stop

/-- The comparator `(a, b) => b.start - a.start` of line 188: `a` is placed
no later than `b` when `b.start ≤ a.start` (descending starts). -/
def descStart (a b : EditOp) : Prop := b.start ≤ a.start

instance : DecidableRel descStart := fun a b => Nat.decLe b.start a.start

/-- `ops.sort((a, b) => b.start - a.start)`: a stable sort by descending
start offset.  `insertionSort` is stable with a non-strict relation, like
`Array.prototype.sort`. -/
def sortDescOps (ops : List EditOp) : List EditOp :=
  List.insertionSort descStart ops

/-- The splice step of `rewriteNoteLinks`, lines 188-193: sort the batch by
descending start offset, then apply each edit right-to-left. -/
def spliceOps (s : List Char) (ops : List EditOp) : List Char :=
  (sortDescOps ops).foldl applyOp s

/-- The ascending companion order, used to state the simultaneous-splice
specification. -/
def ascStart (a b : EditOp) : Prop := a.start ≤ b.start

instance : DecidableRel ascStart := fun a b => Nat.decLe a.start b.start

/-- The same batch listed in ascending start order. -/
def sortAscOps (ops : List EditOp) : List EditOp :=
  List.insertionSort ascStart ops

/-- The segment `s[a:b)` (JavaScript `s.slice(a, b)` for `0 ≤ a ≤ b`). -/
def extractSeg (s : List Char) (a b : Nat) : List Char :=
  (s.drop a).take (b - a)

/-- Specification of applying a batch of edits simultaneously to one
immutable snapshot `s`: the edits are listed left to right, `pos` is the
cursor into the untouched snapshot, each edit contributes the untouched
segment before it followed by its replacement text. -/
def applySimul (s : List Char) (pos : Nat) : List EditOp → List Char
  | [] => s.drop pos
  | e :: rest => extractSeg s pos e.start ++ e.newText ++ applySimul s e.stop rest

/-- A batch is a left-to-right chain over the snapshot `s` starting at
cursor `p`: each edit's span is well formed, within bounds, and begins no
earlier than the cursor left by its predecessor. -/
def chainFrom (s : List Char) : Nat → List EditOp → Prop
  | _, [] => True
  | p, e :: rest => p ≤ e.start ∧ e.start ≤ e.stop ∧ e.stop ≤ s.length ∧
      chainFrom s e.stop rest

/-- Two `[start, stop)` spans do not overlap when one ends before the other
begins. -/
def nonOverlap (a b : EditOp) : Prop := a.stop ≤ b.start ∨ b.stop ≤ a.start

/-- `take` of an append, cut `n` places inside the right part. -/
theorem take_len_add {α : Type} (l₁ l₂ : List α) (n : Nat) :
    (l₁ ++ l₂).take (l₁.length + n) = l₁ ++ l₂.take n := by
  induction l₁ with
  | nil => simp
  | cons a t ih => simp [List.length_cons, Nat.succ_add, ih]

/-- `drop` of an append, cut `n` places inside the right part. -/
theorem drop_len_add {α : Type} (l₁ l₂ : List α) (n : Nat) :
    (l₁ ++ l₂).drop (l₁.length + n) = l₂.drop n := by
  induction l₁ with
  | nil => simp
  | cons a t ih => simp [List.length_cons, Nat.succ_add, ih]

theorem extractSeg_zero (s : List Char) (b : Nat) :
    extractSeg s 0 b = s.take b := by
  simp [extractSeg]

/-- Splitting a segment at an interior point. -/
theorem extractSeg_split (s : List Char) {p q r : Nat} (hpq : p ≤ q)
    (hqr : q ≤ r) : extractSeg s p r = extractSeg s p q ++ extractSeg s q r := by
  unfold extractSeg
  have h1 : r - p = (q - p) + (r - q) := by omega
  rw [h1, List.take_add, List.drop_drop]
  have h2 : p + (q - p) = q := by omega
  rw [h2]

/-- Peeling the untouched prefix `[p, q)` off a simultaneous application
whose first edit starts at or after `q`. -/
theorem applySimul_shift (s : List Char) {p q : Nat} (l : List EditOp)
    (hpq : p ≤ q)
    (hq : ∀ e, l.head? = some e → q ≤ e.start) :
    applySimul s p l = extractSeg s p q ++ applySimul s q l := by
  cases l with
  | nil =>
      simp only [applySimul, extractSeg]
      have h2 : p + (q - p) = q := by omega
      rw [show s.drop q = (s.drop p).drop (q - p) by rw [List.drop_drop, h2]]
      exact (List.take_append_drop (q - p) (s.drop p)).symm
  | cons e rest =>
      simp only [applySimul]
      rw [extractSeg_split s hpq (hq e rfl)]
      simp [List.append_assoc]

theorem chainFrom_mono (s : List Char) {p q : Nat} (l : List EditOp)
    (h : chainFrom s p l) (hqp : q ≤ p) : chainFrom s q l := by
  cases l with
  | nil => trivial
  | cons e rest =>
      obtain ⟨h1, h2, h3, h4⟩ := h
      exact ⟨Nat.le_trans hqp h1, h2, h3, h4⟩

/-- Applying a chain right-to-left (the rightmost edit first) equals the
simultaneous application of the chain to the original snapshot. -/
theorem foldr_applyOp_eq_simul (s : List Char) (l : List EditOp)
    (h : chainFrom s 0 l) :
    l.foldr (fun e acc => applyOp acc e) s = applySimul s 0 l := by
  induction l with
  | nil => rfl
  | cons e rest ih =>
      obtain ⟨_, hwf, hbound, hchain⟩ := h
      have hrest0 : chainFrom s 0 rest := chainFrom_mono s rest hchain (Nat.zero_le _)
      have hhead : ∀ r, rest.head? = some r → e.stop ≤ r.start := by
        intro r hr
        cases rest with
        | nil => exact absurd hr (by simp)
        | cons r0 t =>
            obtain rfl : r0 = r := by simpa using hr
            exact hchain.1
      have ht : rest.foldr (fun e acc => applyOp acc e) s = applySimul s 0 rest :=
        ih hrest0
      have hsplit : applySimul s 0 rest =
          s.take e.stop ++ applySimul s e.stop rest := by
        rw [applySimul_shift s rest (Nat.zero_le e.stop) hhead, extractSeg_zero]
      have hlen : (s.take e.stop).length = e.stop := by
        rw [List.length_take]
        omega
      have htake : (s.take e.stop ++ applySimul s e.stop rest).take e.start =
          s.take e.start := by
        rw [List.take_append_eq_append_take, hlen]
        have h0 : e.start - e.stop = 0 := by omega
        rw [h0, List.take_take, List.take_zero, List.append_nil]
        congr 1
        omega
      have hdrop : (s.take e.stop ++ applySimul s e.stop rest).drop e.stop =
          applySimul s e.stop rest := by
        rw [List.drop_append_eq_append_drop, hlen]
        simp [List.drop_take, Nat.sub_self]
      calc (e :: rest).foldr (fun e acc => applyOp acc e) s
          = applyOp (rest.foldr (fun e acc => applyOp acc e) s) e := rfl
        _ = applyOp (s.take e.stop ++ applySimul s e.stop rest) e := by
              rw [ht, hsplit]
        _ = s.take e.start ++ e.newText ++ applySimul s e.stop rest := by
              unfold applyOp
              rw [htake, hdrop]
        _ = applySimul s 0 (e :: rest) := by
              simp only [applySimul, extractSeg_zero]

/-- The strict descending-start order; trivially antisymmetric. -/
def strictDescStart (a b : EditOp) : Prop := b.start < a.start

instance : IsAntisymm EditOp strictDescStart :=
  ⟨fun _ _ h1 h2 => absurd h2 (Nat.lt_asymm h1)⟩

instance : IsTotal EditOp descStart := ⟨fun a b => Nat.le_total b.start a.start⟩

instance : IsTrans EditOp descStart :=
  ⟨fun _ _ _ h1 h2 => Nat.le_trans h2 h1⟩

instance : IsTotal EditOp ascStart := ⟨fun a b => Nat.le_total a.start b.start⟩

instance : IsTrans EditOp ascStart :=
  ⟨fun _ _ _ h1 h2 => Nat.le_trans h1 h2⟩

/-- Distinct start offsets (the tie-break-free case of the splice sort). -/
def neStart (a b : EditOp) : Prop := a.start ≠ b.start

theorem neStart_symm : ∀ {x y : EditOp}, neStart x y → neStart y x :=
  fun h => fun e => h e.symm

theorem nonOverlap_symm : ∀ {x y : EditOp}, nonOverlap x y → nonOverlap y x :=
  fun h => h.symm

/-- When all start offsets are pairwise distinct, the stable descending sort
is exactly the reverse of the ascending sort. -/
theorem sortDesc_eq_reverse_sortAsc (ops : List EditOp)
    (hne : ops.Pairwise neStart) :
    sortDescOps ops = (sortAscOps ops).reverse := by
  have hpermd : (sortDescOps ops).Perm ops := List.perm_insertionSort descStart ops
  have hperma : (sortAscOps ops).Perm ops := List.perm_insertionSort ascStart ops
  have hperm : (sortDescOps ops).Perm ((sortAscOps ops).reverse) :=
    (hpermd.trans hperma.symm).trans (List.reverse_perm _).symm
  have hned : (sortDescOps ops).Pairwise neStart :=
    ((List.Perm.pairwise_iff neStart_symm hpermd).mpr hne)
  have hnea : (sortAscOps ops).Pairwise neStart :=
    ((List.Perm.pairwise_iff neStart_symm hperma).mpr hne)
  have hsd : (sortDescOps ops).Pairwise strictDescStart := by
    have h1 : (sortDescOps ops).Pairwise descStart :=
      List.sorted_insertionSort descStart ops
    exact (h1.and hned).imp (fun h =>
      Nat.lt_of_le_of_ne h.1 (fun e => h.2 e.symm))
  have hsa : ((sortAscOps ops).reverse).Pairwise strictDescStart := by
    rw [List.pairwise_reverse]
    have h1 : (sortAscOps ops).Pairwise ascStart :=
      List.sorted_insertionSort ascStart ops
    exact (h1.and hnea).imp (fun h =>
      Nat.lt_of_le_of_ne h.1 h.2)
  exact List.eq_of_perm_of_sorted (r := strictDescStart) hperm hsd hsa

/-- An ascending, pairwise non-overlapping, well-formed batch with distinct
starts forms a chain. -/
theorem chainFrom_of_sorted (s : List Char) (l : List EditOp) (p : Nat)
    (hwf : ∀ e ∈ l, e.start ≤ e.stop ∧ e.stop ≤ s.length)
    (hasc : l.Pairwise ascStart)
    (hnov : l.Pairwise nonOverlap)
    (hne : l.Pairwise neStart)
    (hp : ∀ e, l.head? = some e → p ≤ e.start) :
    chainFrom s p l := by
  induction l generalizing p with
  | nil => trivial
  | cons e rest ih =>
      have hwfe := hwf e (by simp)
      refine ⟨hp e rfl, hwfe.1, hwfe.2, ?_⟩
      apply ih
      · exact fun x hx => hwf x (by simp [hx])
      · exact hasc.tail
      · exact hnov.tail
      · exact hne.tail
      · intro r hr
        have hrmem : r ∈ rest := by
          cases rest with
          | nil => exact absurd hr (by simp)
          | cons r0 t =>
              obtain rfl : r0 = r := by simpa using hr
              simp
        have h1 : ascStart e r := (List.pairwise_cons.mp hasc).1 r hrmem
        have h2 : nonOverlap e r := (List.pairwise_cons.mp hnov).1 r hrmem
        have h3 : neStart e r := (List.pairwise_cons.mp hne).1 r hrmem
        have hwfr := hwf r (by simp [hrmem])
        rcases h2 with h2 | h2
        · exact h2
        · exfalso
          have : r.start ≤ e.start := Nat.le_trans hwfr.1 h2
          have : r.start = e.start := Nat.le_antisymm this h1
          exact h3 this.symm

/-- Main correctness of the splice step: a well-formed, pairwise
non-overlapping batch with pairwise distinct start offsets is applied as if
all edits were applied simultaneously to the original snapshot. -/
theorem spliceOps_eq_simul (s : List Char) (ops : List EditOp)
    (hwf : ∀ e ∈ ops, e.start ≤ e.stop ∧ e.stop ≤ s.length)
    (hnov : ops.Pairwise nonOverlap)
    (hne : ops.Pairwise neStart) :
    spliceOps s ops = applySimul s 0 (sortAscOps ops) := by
  have hperma : (sortAscOps ops).Perm ops := List.perm_insertionSort ascStart ops
  have hnova : (sortAscOps ops).Pairwise nonOverlap :=
    (List.Perm.pairwise_iff nonOverlap_symm hperma).mpr hnov
  have hnea : (sortAscOps ops).Pairwise neStart :=
    (List.Perm.pairwise_iff neStart_symm hperma).mpr hne
  have hasc : (sortAscOps ops).Pairwise ascStart :=
    List.sorted_insertionSort ascStart ops
  have hwfa : ∀ e ∈ sortAscOps ops, e.start ≤ e.stop ∧ e.stop ≤ s.length :=
    fun e he => hwf e (hperma.mem_iff.mp he)
  have hchain : chainFrom s 0 (sortAscOps ops) :=
    chainFrom_of_sorted s (sortAscOps ops) 0 hwfa hasc hnova hnea
      (fun _ _ => Nat.zero_le _)
  unfold spliceOps
  rw [sortDesc_eq_reverse_sortAsc ops hne, List.foldl_reverse]
  exact foldr_applyOp_eq_simul s (sortAscOps ops) hchain

instance : DecidableRel nonOverlap := fun a b =>
  inferInstanceAs (Decidable (a.stop ≤ b.start ∨ b.stop ≤ a.start))

instance : DecidableRel neStart := fun a b =>
  inferInstanceAs (Decidable (a.start ≠ b.start))

/-- The stable descending sort of a batch with distinct starts is strictly
descending. -/
theorem sortDescOps_strictSorted (ops : List EditOp)
    (hne : ops.Pairwise neStart) :
    (sortDescOps ops).Pairwise strictDescStart := by
  have hpermd : (sortDescOps ops).Perm ops := List.perm_insertionSort descStart ops
  have hned : (sortDescOps ops).Pairwise neStart :=
    (List.Perm.pairwise_iff neStart_symm hpermd).mpr hne
  have h1 : (sortDescOps ops).Pairwise descStart :=
    List.sorted_insertionSort descStart ops
  exact (h1.and hned).imp (fun h =>
    Nat.lt_of_le_of_ne h.1 (fun e => h.2 e.symm))

/-- C1 as frozen is refuted by a batch holding an insertion (an empty span)
at the start offset of another edit: the spans `[2,2)` and `[2,5)` are
disjoint and in bounds, yet the right-to-left splice loses the insertion's
text `Y` entirely, so no simultaneous reading of the batch is produced. -/
theorem c1_counterexample :
    (∀ e ∈ [EditOp.mk 2 2 "Y".data, EditOp.mk 2 5 "X".data],
        e.start ≤ e.stop ∧ e.stop ≤ ("abcdef".data).length) ∧
    List.Pairwise nonOverlap [EditOp.mk 2 2 "Y".data, EditOp.mk 2 5 "X".data] ∧
    spliceOps "abcdef".data [EditOp.mk 2 2 "Y".data, EditOp.mk 2 5 "X".data]
      = "abXef".data ∧
    applySimul "abcdef".data 0
        (sortAscOps [EditOp.mk 2 2 "Y".data, EditOp.mk 2 5 "X".data])
      = "abYXf".data ∧
    spliceOps "abcdef".data [EditOp.mk 2 2 "Y".data, EditOp.mk 2 5 "X".data]
      ≠ applySimul "abcdef".data 0
          (sortAscOps [EditOp.mk 2 2 "Y".data, EditOp.mk 2 5 "X".data]) := by
  refine ⟨by decide, by decide, by decide, by decide, by decide⟩

/-- C1 (amended): for every base string and every batch of well-formed,
pairwise non-overlapping edits with pairwise distinct start offsets, the
splice step of `rewriteNoteLinks` (sort by descending start offset, apply
right-to-left by slicing and concatenating) produces the base with each
edit's span replaced by its replacement text, as if all edits were applied
simultaneously to the original snapshot. -/
theorem c1_splice_simultaneous (s : List Char) (ops : List EditOp)
    (hwf : ∀ e ∈ ops, e.start ≤ e.stop ∧ e.stop ≤ s.length)
    (hnov : ops.Pairwise nonOverlap)
    (hne : ops.Pairwise neStart) :
    spliceOps s ops = applySimul s 0 (sortAscOps ops) :=
  spliceOps_eq_simul s ops hwf hnov hne

theorem c1_splice_simultaneous_witness :
    List.Pairwise nonOverlap [EditOp.mk 4 6 "Z".data, EditOp.mk 0 2 "XY".data] ∧
    spliceOps "abcdef".data [EditOp.mk 4 6 "Z".data, EditOp.mk 0 2 "XY".data]
      = applySimul "abcdef".data 0
          (sortAscOps [EditOp.mk 4 6 "Z".data, EditOp.mk 0 2 "XY".data]) :=
  ⟨by decide,
   c1_splice_simultaneous "abcdef".data
     [EditOp.mk 4 6 "Z".data, EditOp.mk 0 2 "XY".data]
     (by decide) (by decide) (by decide)⟩

/-- C6 as frozen is refuted by the same tie at start offset 2: the two
orderings of the batch are permutations of one another, the batch is
pairwise non-overlapping, but the stable descending sort keeps the tied
edits in their arrival order, so the two permutations splice to different
strings. -/
theorem c6_counterexample :
    List.Perm [EditOp.mk 2 5 "X".data, EditOp.mk 2 2 "Y".data]
      [EditOp.mk 2 2 "Y".data, EditOp.mk 2 5 "X".data] ∧
    List.Pairwise nonOverlap [EditOp.mk 2 5 "X".data, EditOp.mk 2 2 "Y".data] ∧
    spliceOps "abcdef".data [EditOp.mk 2 5 "X".data, EditOp.mk 2 2 "Y".data]
      = "abYXf".data ∧
    spliceOps "abcdef".data [EditOp.mk 2 2 "Y".data, EditOp.mk 2 5 "X".data]
      = "abXef".data ∧
    spliceOps "abcdef".data [EditOp.mk 2 5 "X".data, EditOp.mk 2 2 "Y".data]
      ≠ spliceOps "abcdef".data [EditOp.mk 2 2 "Y".data, EditOp.mk 2 5 "X".data] := by
  refine ⟨by decide, by decide, by decide, by decide, by decide⟩

/-- C6 (amended): for every base string and every batch of pairwise
non-overlapping edits with pairwise distinct start offsets, the splice step
of `rewriteNoteLinks` applied to any permutation of the same edit list
yields the same output string. -/
theorem c6_permutation_invariant (s : List Char) (ops1 ops2 : List EditOp)
    (hperm : ops1.Perm ops2)
    (_hnov : ops1.Pairwise nonOverlap)
    (hne : ops1.Pairwise neStart) :
    spliceOps s ops1 = spliceOps s ops2 := by
  have hne2 : ops2.Pairwise neStart :=
    (List.Perm.pairwise_iff neStart_symm hperm).mp hne
  have h1 := sortDescOps_strictSorted ops1 hne
  have h2 := sortDescOps_strictSorted ops2 hne2
  have hp : (sortDescOps ops1).Perm (sortDescOps ops2) :=
    ((List.perm_insertionSort descStart ops1).trans hperm).trans
      (List.perm_insertionSort descStart ops2).symm
  have heq : sortDescOps ops1 = sortDescOps ops2 :=
    List.eq_of_perm_of_sorted (r := strictDescStart) hp h1 h2
  unfold spliceOps
  rw [heq]

theorem c6_permutation_invariant_witness :
    List.Perm [EditOp.mk 4 6 "Z".data, EditOp.mk 0 2 "XY".data]
      [EditOp.mk 0 2 "XY".data, EditOp.mk 4 6 "Z".data] ∧
    spliceOps "abcdef".data [EditOp.mk 4 6 "Z".data, EditOp.mk 0 2 "XY".data]
      = spliceOps "abcdef".data [EditOp.mk 0 2 "XY".data, EditOp.mk 4 6 "Z".data] :=
  ⟨by decide,
   c6_permutation_invariant "abcdef".data
     [EditOp.mk 4 6 "Z".data, EditOp.mk 0 2 "XY".data]
     [EditOp.mk 0 2 "XY".data, EditOp.mk 4 6 "Z".data]
     (by decide) (by decide) (by decide)⟩

/-- One clamped splice never grows the string by more than the replacement
text it inserts. -/
theorem applyOp_length_le (s : List Char) (op : EditOp)
    (h : op.start ≤ op.stop) :
    (applyOp s op).length ≤ s.length + op.newText.length := by
  simp only [applyOp, List.length_append, List.length_take, List.length_drop]
  rw [Nat.min_def]
  split <;> omega

theorem foldl_applyOp_length (l : List EditOp) (s : List Char)
    (h : ∀ e ∈ l, e.start ≤ e.stop) :
    (l.foldl applyOp s).length ≤
      s.length + (l.map (fun e => e.newText.length)).sum := by
  induction l generalizing s with
  | nil => simp
  | cons e rest ih =>
      have h1 := applyOp_length_le s e (h e (by simp))
      have h2 := ih (applyOp s e) (fun x hx => h x (by simp [hx]))
      simp only [List.foldl_cons, List.map_cons, List.sum_cons]
      omega

/-- C2 as frozen is refuted: on the overlapping batch `[0,4)/"X"` and
`[2,6)/"Y"` over `"abcdef"`, the splice step of `rewriteNoteLinks` applies
both edits right-to-left and produces `"X"`, which differs from every
possible skip-based outcome (skipping either edit, or both). -/
theorem c2_counterexample :
    ¬ nonOverlap (EditOp.mk 0 4 "X".data) (EditOp.mk 2 6 "Y".data) ∧
    spliceOps "abcdef".data [EditOp.mk 0 4 "X".data, EditOp.mk 2 6 "Y".data]
      = "X".data ∧
    spliceOps "abcdef".data [EditOp.mk 0 4 "X".data, EditOp.mk 2 6 "Y".data]
      ≠ spliceOps "abcdef".data [EditOp.mk 0 4 "X".data] ∧
    spliceOps "abcdef".data [EditOp.mk 0 4 "X".data, EditOp.mk 2 6 "Y".data]
      ≠ spliceOps "abcdef".data [EditOp.mk 2 6 "Y".data] ∧
    spliceOps "abcdef".data [EditOp.mk 0 4 "X".data, EditOp.mk 2 6 "Y".data]
      ≠ spliceOps "abcdef".data [] := by
  refine ⟨by decide, by decide, by decide, by decide, by decide⟩

/-- C2 (amended): when the parser returns overlapping occurrences,
`rewriteNoteLinks` never crashes — every edit is applied by total, clamping
string slicing, so for any batch of edits with well-formed spans (overlap
allowed) the splice step returns a well-defined string of length at most
the input length plus the total replacement-text length — but it does not
skip the edits it cannot place unambiguously: all edits are applied
right-to-left. -/
theorem c2_no_crash_length_bound (s : List Char) (ops : List EditOp)
    (hwf : ∀ e ∈ ops, e.start ≤ e.stop) :
    (spliceOps s ops).length ≤
      s.length + (ops.map (fun e => e.newText.length)).sum := by
  have hperm : (sortDescOps ops).Perm ops := List.perm_insertionSort descStart ops
  have hwfd : ∀ e ∈ sortDescOps ops, e.start ≤ e.stop :=
    fun e he => hwf e (hperm.mem_iff.mp he)
  have hsum : ((sortDescOps ops).map (fun e => e.newText.length)).sum
      = (ops.map (fun e => e.newText.length)).sum :=
    (hperm.map (fun e => e.newText.length)).sum_eq
  unfold spliceOps
  calc ((sortDescOps ops).foldl applyOp s).length
      ≤ s.length + ((sortDescOps ops).map (fun e => e.newText.length)).sum :=
        foldl_applyOp_length (sortDescOps ops) s hwfd
    _ = s.length + (ops.map (fun e => e.newText.length)).sum := by rw [hsum]

theorem c2_no_crash_length_bound_witness :
    (∀ e ∈ [EditOp.mk 0 4 "X".data, EditOp.mk 2 6 "Y".data],
        e.start ≤ e.stop) ∧
    (spliceOps "abcdef".data
        [EditOp.mk 0 4 "X".data, EditOp.mk 2 6 "Y".data]).length ≤
      ("abcdef".data).length +
        (([EditOp.mk 0 4 "X".data, EditOp.mk 2 6 "Y".data]).map
          (fun e => e.newText.length)).sum :=
  ⟨by decide,
   c2_no_crash_length_bound "abcdef".data
     [EditOp.mk 0 4 "X".data, EditOp.mk 2 6 "Y".data] (by decide)⟩

/-- ASCII whitespace recognised by JavaScript `String.prototype.trim`. -/
def isJSSpace (c : Char) : Bool :=
  c = ' ' || c = '\t' || c = '\n' || c = '\r' || c.toNat = 11 || c.toNat = 12

/-- JavaScript `s.trim()`: strip leading and trailing whitespace. -/
def trimChars (l : List Char) : List Char :=
  ((l.dropWhile isJSSpace).reverse.dropWhile isJSSpace).reverse

/-- `rawLink.split("|")[0]` followed by `.trim()` (lines 126 and 152). -/
def splitNoPipe (l : List Char) : List Char :=
  trimChars (l.takeWhile (fun c => c ≠ '|'))

/-- `rawLink.includes("|") ? rawLink.slice(rawLink.indexOf("|")) : ""`
(lines 134 and 159): the suffix from the first pipe on, pipe included. -/
def pipeSuffixOf (l : List Char) : List Char :=
  if l.any (fun c => c = '|') then l.dropWhile (fun c => c ≠ '|') else []

/-- JavaScript `s.lastIndexOf(c)` for a single character, as an `Option`
(`none` plays the role of `-1`). -/
def lastIdxOf (c : Char) : List Char → Option Nat
  | [] => none
  | a :: t =>
      match lastIdxOf c t with
      | some i => some (i + 1)
      | none => if a = c then some 0 else none

/-- JavaScript `s.indexOf(pat)` as an `Option`: index of the first
occurrence of `pat` as a contiguous sublist. -/
def firstSubIdx (pat : List Char) : List Char → Option Nat
  | [] => if pat.isPrefixOf [] then some 0 else none
  | l@(_ :: t) =>
      if pat.isPrefixOf l then some 0
      else (firstSubIdx pat t).map (fun i => i + 1)

/-- JavaScript `s.indexOf(pat, start)`. -/
def indexOfFrom (l pat : List Char) (start : Nat) : Option Nat :=
  (firstSubIdx pat (l.drop start)).map (fun i => i + start)

/-- One occurrence record as consumed from the metadata cache: the raw link
text (`e.link`, possibly holding a `|`-suffix) and the character-offset
span of the whole syntactic construct (`e.position.start.offset` /
`e.position.end.offset`). -/
structure RefRec where
  link : List Char
  startOff : Nat
  endOff : Nat
deriving DecidableEq

/-- The wiki-embed loop body of `rewriteNoteLinks`, lines 120-143.
`resolve` stands for `getFirstLinkpathDest` (returning `none` for an
unresolved or non-file target), `repl` for `replacements.get` (`none` when
the key is absent; the code's falsy test also skips an empty string), and
`toLink` for the external `toLinkText`/`fileToLinktext` display resolver. -/
def computeEmbedOp (resolve : List Char → Option (List Char))
    (repl : List Char → Option (List Char))
    (toLink : List Char → List Char) (e : RefRec) : Option EditOp :=
  if e.link = [] then none
  else
    match resolve (splitNoPipe e.link) with
    | none => none
    | some resolvedPath =>
        match repl resolvedPath with
        | none => none
        | some newAbs =>
            if newAbs = [] then none
            else
              let newTarget := toLink newAbs ++ pipeSuffixOf e.link
              let start := e.startOff + 3
              let stop := e.endOff - 2
              if start < stop then some ⟨start, stop, newTarget⟩ else none

/-- The markdown-link loop body of `rewriteNoteLinks`, lines 147-183:
prefer the span between the last `(` and the last `)` of the occurrence's
slice; fall back to the first occurrence of the raw link text inside the
slice; otherwise emit no edit. -/
def computeLinkOp (original : List Char)
    (resolve : List Char → Option (List Char))
    (repl : List Char → Option (List Char))
    (toLink : List Char → List Char) (l : RefRec) : Option EditOp :=
  if l.link = [] then none
  else
    match resolve (splitNoPipe l.link) with
    | none => none
    | some resolvedPath =>
        match repl resolvedPath with
        | none => none
        | some newAbs =>
            if newAbs = [] then none
            else
              let newTarget := toLink newAbs ++ pipeSuffixOf l.link
              let sliceStart := l.startOff
              let slice := extractSeg original l.startOff l.endOff
              let parenPair :=
                match lastIdxOf '(' slice, lastIdxOf ')' slice with
                | some openIdx, some closeIdx =>
                    if openIdx < closeIdx then some (openIdx, closeIdx) else none
                | _, _ => none
              match parenPair with
              | some p =>
                  some ⟨sliceStart + p.1 + 1, sliceStart + p.2, newTarget⟩
              | none =>
                  match firstSubIdx l.link slice with
                  | some rawIdx =>
                      some ⟨sliceStart + rawIdx,
                            sliceStart + rawIdx + l.link.length, newTarget⟩
                  | none => none

/-- `replacements.get(key)` over the replacement map, modelled as an
association list with first-match lookup. -/
def lookupRepl (replacements : List (List Char × List Char))
    (k : List Char) : Option (List Char) :=
  (replacements.find? (fun p => p.1 == k)).map (fun p => p.2)

/-- `rewriteNoteLinks`, lines 97-198, as a pure text transformer: the note
body, the cache's embed and link occurrence lists, the replacement map
(an association list with first-match lookup, as `Map.get`), and the two
external resolvers come in; the rewritten body comes out.  An empty
replacement map, an empty op batch, or an unchanged result all leave the
note text as it was. -/
def rewriteNoteLinksModel (original : List Char)
    (embeds links : List RefRec)
    (replacements : List (List Char × List Char))
    (resolve : List Char → Option (List Char))
    (toLink : List Char → List Char) : List Char :=
  if replacements = [] then original
  else
    let ops := embeds.filterMap
        (computeEmbedOp resolve (lookupRepl replacements) toLink) ++
      links.filterMap
        (computeLinkOp original resolve (lookupRepl replacements) toLink)
    if ops = [] then original
    else spliceOps original ops

/-- The `getFirstLinkpathDest` collaborator for the photo scenarios: the
vault holds `photo.heic` (and, after conversion, `photo.jpg`); the bare
target `photo.heic` resolves to the vault path `photo.heic`. -/
def heicResolve (s : List Char) : Option (List Char) :=
  if s = "photo.heic".data then some "photo.heic".data else none

/-- The `fileToLinktext` display resolver for the photo scenarios: it
renders the new file as `photo.jpg`. -/
def heicDisplay (_ : List Char) : List Char := "photo.jpg".data

theorem take_len {α : Type} (l₁ l₂ : List α) : (l₁ ++ l₂).take l₁.length = l₁ := by
  simp

theorem drop_len {α : Type} (l₁ l₂ : List α) : (l₁ ++ l₂).drop l₁.length = l₂ := by
  simp

/-- C3: rewriting a document holding the wiki-style embed
`![[photo.heic|300x200]]` with the replacement map
`photo.heic -> photo.jpg` and a display resolver returning `photo.jpg`
yields `![[photo.jpg|300x200]]` at that occurrence — the pipe-delimited
suffix is preserved verbatim — and every character of the document outside
that occurrence's target sub-span (here, everything outside the embed's
inner target, for arbitrary surrounding text `pre` and `post`) is
byte-identical to the input. -/
theorem c3_wiki_embed_rewrite (pre post : List Char) :
    rewriteNoteLinksModel (pre ++ ("![[photo.heic|300x200]]".data ++ post))
      [RefRec.mk "photo.heic|300x200".data pre.length (pre.length + 23)] []
      [("photo.heic".data, "photo.jpg".data)] heicResolve heicDisplay
    = pre ++ ("![[photo.jpg|300x200]]".data ++ post) := by
  have hop : computeEmbedOp heicResolve
      (lookupRepl [("photo.heic".data, "photo.jpg".data)]) heicDisplay
      (RefRec.mk "photo.heic|300x200".data pre.length (pre.length + 23))
      = some ⟨pre.length + 3, pre.length + 21, "photo.jpg|300x200".data⟩ := by
    unfold computeEmbedOp
    rw [if_neg (show ¬("photo.heic|300x200".data = ([] : List Char)) from by decide)]
    rw [show heicResolve (splitNoPipe "photo.heic|300x200".data)
        = some "photo.heic".data from by decide]
    simp only []
    rw [show lookupRepl [("photo.heic".data, "photo.jpg".data)] "photo.heic".data
        = some "photo.jpg".data from by decide]
    simp only []
    rw [if_neg (show ¬("photo.jpg".data = ([] : List Char)) from by decide)]
    rw [if_pos (show pre.length + 3 < pre.length + 23 - 2 from by omega)]
    rw [show pre.length + 23 - 2 = pre.length + 21 from by omega]
    rfl
  unfold rewriteNoteLinksModel
  rw [if_neg (show ¬(([("photo.heic".data, "photo.jpg".data)] :
      List (List Char × List Char)) = []) from by decide)]
  simp only [List.filterMap_cons, List.filterMap_nil, hop, List.append_nil]
  rw [if_neg (show ¬([(⟨pre.length + 3, pre.length + 21,
      "photo.jpg|300x200".data⟩ : EditOp)] = ([] : List EditOp)) from by simp)]
  show applyOp (pre ++ ("![[photo.heic|300x200]]".data ++ post))
      ⟨pre.length + 3, pre.length + 21, "photo.jpg|300x200".data⟩
    = pre ++ ("![[photo.jpg|300x200]]".data ++ post)
  unfold applyOp
  have h1 : (pre ++ ("![[photo.heic|300x200]]".data ++ post)).take (pre.length + 3)
      = pre ++ "![[".data := by
    rw [take_len_add, List.take_append_eq_append_take,
      show (3 - ("![[photo.heic|300x200]]".data).length) = 0 from by decide,
      show ("![[photo.heic|300x200]]".data).take 3 = "![[".data from by decide]
    simp
  have h2 : (pre ++ ("![[photo.heic|300x200]]".data ++ post)).drop (pre.length + 21)
      = "]]".data ++ post := by
    rw [drop_len_add, List.drop_append_eq_append_drop,
      show (21 - ("![[photo.heic|300x200]]".data).length) = 0 from by decide,
      show ("![[photo.heic|300x200]]".data).drop 21 = "]]".data from by decide]
    simp
  rw [h1, h2]
  rw [show "![[photo.jpg|300x200]]".data
      = "![[".data ++ ("photo.jpg|300x200".data ++ "]]".data) from by decide]
  simp [List.append_assoc]

/-- C4: rewriting a document holding the markdown image `![alt](photo.heic)`
with the replacement map `photo.heic -> photo.jpg` and a display resolver
returning `photo.jpg` yields `![alt](photo.jpg)`: only the target between
the parentheses is replaced, the alt text and all surrounding text (`pre`,
`post` arbitrary) are unchanged. -/
theorem c4_markdown_image_rewrite (pre post : List Char) :
    rewriteNoteLinksModel (pre ++ ("![alt](photo.heic)".data ++ post))
      [] [RefRec.mk "photo.heic".data pre.length (pre.length + 18)]
      [("photo.heic".data, "photo.jpg".data)] heicResolve heicDisplay
    = pre ++ ("![alt](photo.jpg)".data ++ post) := by
  have hslice : extractSeg (pre ++ ("![alt](photo.heic)".data ++ post))
      pre.length (pre.length + 18) = "![alt](photo.heic)".data := by
    unfold extractSeg
    rw [show pre.length + 18 - pre.length = 18 from by omega, drop_len]
    rw [List.take_append_eq_append_take,
      show (18 - ("![alt](photo.heic)".data).length) = 0 from by decide,
      show ("![alt](photo.heic)".data).take 18 = "![alt](photo.heic)".data from by decide]
    simp
  have hop : computeLinkOp (pre ++ ("![alt](photo.heic)".data ++ post)) heicResolve
      (lookupRepl [("photo.heic".data, "photo.jpg".data)]) heicDisplay
      (RefRec.mk "photo.heic".data pre.length (pre.length + 18))
      = some ⟨pre.length + 7, pre.length + 17, "photo.jpg".data⟩ := by
    unfold computeLinkOp
    rw [if_neg (show ¬("photo.heic".data = ([] : List Char)) from by decide)]
    rw [show heicResolve (splitNoPipe "photo.heic".data)
        = some "photo.heic".data from by decide]
    simp only []
    rw [show lookupRepl [("photo.heic".data, "photo.jpg".data)] "photo.heic".data
        = some "photo.jpg".data from by decide]
    simp only []
    rw [if_neg (show ¬("photo.jpg".data = ([] : List Char)) from by decide)]
    rw [hslice]
    rw [show lastIdxOf '(' "![alt](photo.heic)".data = some 6 from by decide]
    rw [show lastIdxOf ')' "![alt](photo.heic)".data = some 17 from by decide]
    simp only []
    rw [if_pos (show (6 : Nat) < 17 from by decide)]
    rw [show pre.length + 6 + 1 = pre.length + 7 from by omega]
    rfl
  unfold rewriteNoteLinksModel
  rw [if_neg (show ¬(([("photo.heic".data, "photo.jpg".data)] :
      List (List Char × List Char)) = []) from by decide)]
  simp only [List.filterMap_cons, List.filterMap_nil, hop, List.nil_append]
  rw [if_neg (show ¬([(⟨pre.length + 7, pre.length + 17,
      "photo.jpg".data⟩ : EditOp)] = ([] : List EditOp)) from by simp)]
  show applyOp (pre ++ ("![alt](photo.heic)".data ++ post))
      ⟨pre.length + 7, pre.length + 17, "photo.jpg".data⟩
    = pre ++ ("![alt](photo.jpg)".data ++ post)
  unfold applyOp
  have h1 : (pre ++ ("![alt](photo.heic)".data ++ post)).take (pre.length + 7)
      = pre ++ "![alt](".data := by
    rw [take_len_add, List.take_append_eq_append_take,
      show (7 - ("![alt](photo.heic)".data).length) = 0 from by decide,
      show ("![alt](photo.heic)".data).take 7 = "![alt](".data from by decide]
    simp
  have h2 : (pre ++ ("![alt](photo.heic)".data ++ post)).drop (pre.length + 17)
      = ")".data ++ post := by
    rw [drop_len_add, List.drop_append_eq_append_drop,
      show (17 - ("![alt](photo.heic)".data).length) = 0 from by decide,
      show ("![alt](photo.heic)".data).drop 17 = ")".data from by decide]
    simp
  rw [h1, h2]
  rw [show "![alt](photo.jpg)".data
      = "![alt](".data ++ ("photo.jpg".data ++ ")".data) from by decide]
  simp [List.append_assoc]

theorem lastIdxOf_lt_length {c : Char} {l : List Char} {i : Nat}
    (h : lastIdxOf c l = some i) : i < l.length := by
  induction l generalizing i with
  | nil => exact absurd h (by simp [lastIdxOf])
  | cons a t ih =>
      unfold lastIdxOf at h
      cases ht : lastIdxOf c t with
      | some j =>
          rw [ht] at h
          obtain rfl : j + 1 = i := by simpa using h
          have := ih ht
          simp only [List.length_cons]
          omega
      | none =>
          rw [ht] at h
          by_cases hac : a = c
          · rw [if_pos hac] at h
            obtain rfl : 0 = i := by simpa using h
            simp
          · rw [if_neg hac] at h
            exact absurd h (by simp)

theorem firstSubIdx_bound {pat l : List Char} {i : Nat}
    (h : firstSubIdx pat l = some i) : i + pat.length ≤ l.length := by
  induction l generalizing i with
  | nil =>
      unfold firstSubIdx at h
      by_cases hp : pat.isPrefixOf ([] : List Char)
      · rw [if_pos hp] at h
        obtain rfl : 0 = i := by simpa using h
        have : pat <+: ([] : List Char) := List.isPrefixOf_iff_prefix.mp hp
        have := this.length_le
        simpa using this
      · rw [if_neg hp] at h
        exact absurd h (by simp)
  | cons a t ih =>
      unfold firstSubIdx at h
      by_cases hp : pat.isPrefixOf (a :: t)
      · rw [if_pos hp] at h
        obtain rfl : 0 = i := by simpa using h
        have : pat <+: (a :: t) := List.isPrefixOf_iff_prefix.mp hp
        simpa using this.length_le
      · rw [if_neg hp] at h
        cases ht : firstSubIdx pat t with
        | some j =>
            rw [ht] at h
            obtain rfl : j + 1 = i := by simpa using h
            have := ih ht
            simp only [List.length_cons]
            omega
        | none =>
            rw [ht] at h
            exact absurd h (by simp)

/-- A clamped splice leaves every prefix that ends at or before the edit's
start untouched. -/
theorem applyOp_take_preserve (s : List Char) (op : EditOp) (k : Nat)
    (h1 : k ≤ op.start) (h2 : k ≤ s.length) :
    (applyOp s op).take k = s.take k := by
  have h3 : k ≤ (s.take op.start).length := by
    rw [List.length_take]
    exact Nat.le_min.mpr ⟨h1, h2⟩
  rw [show applyOp s op = s.take op.start ++ (op.newText ++ s.drop op.stop)
      from by simp [applyOp, List.append_assoc]]
  rw [List.take_append_eq_append_take, Nat.sub_eq_zero_of_le h3,
    List.take_zero, List.append_nil, List.take_take, Nat.min_eq_left h1]

/-- A clamped splice keeps everything from any point at or after the edit's
stop as a suffix of the result. -/
theorem applyOp_drop_suffix (s : List Char) (op : EditOp) (m : Nat)
    (h : op.stop ≤ m) :
    List.IsSuffix (s.drop m) (applyOp s op) := by
  have h1 : s.drop m = (s.drop op.stop).drop (m - op.stop) := by
    rw [List.drop_drop]
    congr 1
    omega
  have h2 : List.IsSuffix ((s.drop op.stop).drop (m - op.stop)) (s.drop op.stop) :=
    List.drop_suffix _ _
  have h3 : List.IsSuffix (s.drop op.stop) (applyOp s op) :=
    ⟨s.take op.start ++ op.newText, by simp [applyOp, List.append_assoc]⟩
  rw [h1]
  exact h2.trans h3

theorem seg_len_eq (original : List Char) (so eo : Nat) :
    (extractSeg original so eo).length = min (eo - so) (original.length - so) := by
  simp [extractSeg, List.length_take, List.length_drop]

theorem seg_stop_le_min (original : List Char) (so eo k : Nat)
    (h1 : k ≤ (extractSeg original so eo).length)
    (h2 : 1 ≤ (extractSeg original so eo).length) :
    so + k ≤ min eo original.length := by
  have hlen := seg_len_eq original so eo
  have ha : (extractSeg original so eo).length ≤ eo - so := by
    rw [hlen]; exact Nat.min_le_left _ _
  have hb : (extractSeg original so eo).length ≤ original.length - so := by
    rw [hlen]; exact Nat.min_le_right _ _
  refine Nat.le_min.mpr ⟨by omega, by omega⟩

theorem linkOp_conclusion (original : List Char) (so eo : Nat) (op : EditOp)
    (ha : so ≤ op.start) (hab : op.start ≤ op.stop)
    (hb : op.stop ≤ min eo original.length) :
    so ≤ op.start ∧ op.start ≤ op.stop ∧ op.stop ≤ min eo original.length ∧
    (applyOp original op).take so = original.take so ∧
    (applyOp original op).take op.start = original.take op.start ∧
    List.IsSuffix (original.drop op.stop) (applyOp original op) ∧
    List.IsSuffix (original.drop (min eo original.length)) (applyOp original op) := by
  have hlen : op.stop ≤ original.length :=
    Nat.le_trans hb (Nat.min_le_right _ _)
  refine ⟨ha, hab, hb, ?_, ?_, ?_, ?_⟩
  · exact applyOp_take_preserve original op so (by omega) (by omega)
  · exact applyOp_take_preserve original op op.start (Nat.le_refl _) (by omega)
  · exact applyOp_drop_suffix original op op.stop (Nat.le_refl _)
  · exact applyOp_drop_suffix original op (min eo original.length) hb

/-- C5: for every inline-reference occurrence selected for replacement,
`rewriteNoteLinks` replaces the contents between the last open-parenthesis
and the last close-parenthesis inside the occurrence's span; if no such
pair exists it falls back to replacing the first verbatim occurrence of the
raw link text within the span; if that is also absent the occurrence is
skipped (no edit is emitted); and any edit it does emit stays inside the
occurrence's span and inside the text, never corrupting text outside the
chosen sub-span: the prefix before the edit (and before the occurrence) and
the suffix after the edit (and after the occurrence) survive verbatim. -/
theorem c5_inline_ref_policy (original : List Char) (l : RefRec)
    (resolve repl : List Char → Option (List Char))
    (toLink : List Char → List Char) :
    (∀ op, computeLinkOp original resolve repl toLink l = some op →
      l.startOff ≤ op.start ∧ op.start ≤ op.stop ∧
      op.stop ≤ min l.endOff original.length ∧
      (applyOp original op).take l.startOff = original.take l.startOff ∧
      (applyOp original op).take op.start = original.take op.start ∧
      List.IsSuffix (original.drop op.stop) (applyOp original op) ∧
      List.IsSuffix (original.drop (min l.endOff original.length))
        (applyOp original op)) ∧
    (∀ rp na o c, l.link ≠ [] → resolve (splitNoPipe l.link) = some rp →
      repl rp = some na → na ≠ [] →
      lastIdxOf '(' (extractSeg original l.startOff l.endOff) = some o →
      lastIdxOf ')' (extractSeg original l.startOff l.endOff) = some c →
      o < c →
      computeLinkOp original resolve repl toLink l =
        some ⟨l.startOff + o + 1, l.startOff + c,
          toLink na ++ pipeSuffixOf l.link⟩) ∧
    (∀ rp na i, l.link ≠ [] → resolve (splitNoPipe l.link) = some rp →
      repl rp = some na → na ≠ [] →
      (∀ o c, lastIdxOf '(' (extractSeg original l.startOff l.endOff) = some o →
        lastIdxOf ')' (extractSeg original l.startOff l.endOff) = some c →
        c ≤ o) →
      firstSubIdx l.link (extractSeg original l.startOff l.endOff) = some i →
      computeLinkOp original resolve repl toLink l =
        some ⟨l.startOff + i, l.startOff + i + l.link.length,
          toLink na ++ pipeSuffixOf l.link⟩) ∧
    ((∀ o c, lastIdxOf '(' (extractSeg original l.startOff l.endOff) = some o →
        lastIdxOf ')' (extractSeg original l.startOff l.endOff) = some c →
        c ≤ o) →
      firstSubIdx l.link (extractSeg original l.startOff l.endOff) = none →
      computeLinkOp original resolve repl toLink l = none) := by
  refine ⟨?_, ?_, ?_, ?_⟩
  · intro op hop
    unfold computeLinkOp at hop
    by_cases h0 : l.link = []
    · rw [if_pos h0] at hop
      exact absurd hop (by simp)
    rw [if_neg h0] at hop
    have hL : 1 ≤ l.link.length := by
      cases hl : l.link with
      | nil => exact absurd hl h0
      | cons a t => simp
    cases hres : resolve (splitNoPipe l.link) with
    | none =>
        rw [hres] at hop
        exact absurd hop (by simp)
    | some rp =>
    rw [hres] at hop
    simp only [] at hop
    cases hrep : repl rp with
    | none =>
        rw [hrep] at hop
        exact absurd hop (by simp)
    | some na =>
    rw [hrep] at hop
    simp only [] at hop
    by_cases hna : na = []
    · rw [if_pos hna] at hop
      exact absurd hop (by simp)
    rw [if_neg hna] at hop
    cases ho : lastIdxOf '(' (extractSeg original l.startOff l.endOff) with
    | some o =>
        cases hc : lastIdxOf ')' (extractSeg original l.startOff l.endOff) with
        | some c =>
            rw [ho, hc] at hop
            simp only [] at hop
            by_cases hoc : o < c
            · rw [if_pos hoc] at hop
              simp only [] at hop
              obtain rfl : (⟨l.startOff + o + 1, l.startOff + c,
                  toLink na ++ pipeSuffixOf l.link⟩ : EditOp) = op := by
                simpa using hop
              have hclt := lastIdxOf_lt_length hc
              exact linkOp_conclusion original l.startOff l.endOff _
                (by show l.startOff ≤ l.startOff + o + 1; omega)
                (by show l.startOff + o + 1 ≤ l.startOff + c; omega)
                (by show l.startOff + c ≤ min l.endOff original.length
                    exact seg_stop_le_min original l.startOff l.endOff c
                      (by omega) (by omega))
            · rw [if_neg hoc] at hop
              simp only [] at hop
              cases hi : firstSubIdx l.link (extractSeg original l.startOff l.endOff) with
              | none =>
                  rw [hi] at hop
                  exact absurd hop (by simp)
              | some i =>
                  rw [hi] at hop
                  obtain rfl : (⟨l.startOff + i, l.startOff + i + l.link.length,
                      toLink na ++ pipeSuffixOf l.link⟩ : EditOp) = op := by
                    simpa using hop
                  have hib := firstSubIdx_bound hi
                  exact linkOp_conclusion original l.startOff l.endOff _
                    (by show l.startOff ≤ l.startOff + i; omega)
                    (by show l.startOff + i ≤ l.startOff + i + l.link.length; omega)
                    (by show l.startOff + i + l.link.length ≤
                          min l.endOff original.length
                        have hs := seg_stop_le_min original l.startOff l.endOff
                          (i + l.link.length) (by omega) (by omega)
                        omega)
        | none =>
            rw [ho, hc] at hop
            simp only [] at hop
            cases hi : firstSubIdx l.link (extractSeg original l.startOff l.endOff) with
            | none =>
                rw [hi] at hop
                exact absurd hop (by simp)
            | some i =>
                rw [hi] at hop
                obtain rfl : (⟨l.startOff + i, l.startOff + i + l.link.length,
                    toLink na ++ pipeSuffixOf l.link⟩ : EditOp) = op := by
                  simpa using hop
                have hib := firstSubIdx_bound hi
                exact linkOp_conclusion original l.startOff l.endOff _
                  (by show l.startOff ≤ l.startOff + i; omega)
                  (by show l.startOff + i ≤ l.startOff + i + l.link.length; omega)
                  (by show l.startOff + i + l.link.length ≤
                        min l.endOff original.length
                      have hs := seg_stop_le_min original l.startOff l.endOff
                        (i + l.link.length) (by omega) (by omega)
                      omega)
    | none =>
        rw [ho] at hop
        simp only [] at hop
        cases hi : firstSubIdx l.link (extractSeg original l.startOff l.endOff) with
        | none =>
            rw [hi] at hop
            exact absurd hop (by simp)
        | some i =>
            rw [hi] at hop
            obtain rfl : (⟨l.startOff + i, l.startOff + i + l.link.length,
                toLink na ++ pipeSuffixOf l.link⟩ : EditOp) = op := by
              simpa using hop
            have hib := firstSubIdx_bound hi
            exact linkOp_conclusion original l.startOff l.endOff _
              (by show l.startOff ≤ l.startOff + i; omega)
              (by show l.startOff + i ≤ l.startOff + i + l.link.length; omega)
              (by show l.startOff + i + l.link.length ≤
                    min l.endOff original.length
                  have hs := seg_stop_le_min original l.startOff l.endOff
                    (i + l.link.length) (by omega) (by omega)
                  omega)
  · intro rp na o c h0 hres hrep hna ho hc hoc
    unfold computeLinkOp
    rw [if_neg h0, hres]
    simp only []
    rw [hrep]
    simp only []
    rw [if_neg hna]
    rw [ho, hc]
    simp only []
    rw [if_pos hoc]
  · intro rp na i h0 hres hrep hna hpar hi
    unfold computeLinkOp
    rw [if_neg h0, hres]
    simp only []
    rw [hrep]
    simp only []
    rw [if_neg hna]
    cases ho : lastIdxOf '(' (extractSeg original l.startOff l.endOff) with
    | some o =>
        cases hc : lastIdxOf ')' (extractSeg original l.startOff l.endOff) with
        | some c =>
            simp only []
            rw [if_neg (by have := hpar o c ho hc; omega)]
            simp only []
            rw [hi]
        | none =>
            simp only []
            rw [hi]
    | none =>
        simp only []
        rw [hi]
  · intro hpar hsub
    unfold computeLinkOp
    by_cases h0 : l.link = []
    · rw [if_pos h0]
    rw [if_neg h0]
    cases hres : resolve (splitNoPipe l.link) with
    | none => rfl
    | some rp =>
    simp only []
    cases hrep : repl rp with
    | none => rfl
    | some na =>
    simp only []
    by_cases hna : na = []
    · rw [if_pos hna]
    rw [if_neg hna]
    cases ho : lastIdxOf '(' (extractSeg original l.startOff l.endOff) with
    | some o =>
        cases hc : lastIdxOf ')' (extractSeg original l.startOff l.endOff) with
        | some c =>
            simp only []
            rw [if_neg (by have := hpar o c ho hc; omega)]
            simp only []
            rw [hsub]
        | none =>
            simp only []
            rw [hsub]
    | none =>
        simp only []
        rw [hsub]


theorem c5_inline_ref_policy_witness :
    (0 : Nat) ≤ 7 ∧ (7 : Nat) ≤ 17 ∧
    (17 : Nat) ≤ min 18 ("![alt](photo.heic)".data).length ∧
    (applyOp "![alt](photo.heic)".data
        (EditOp.mk 7 17 "photo.jpg".data)).take 0
      = ("![alt](photo.heic)".data).take 0 ∧
    (applyOp "![alt](photo.heic)".data
        (EditOp.mk 7 17 "photo.jpg".data)).take 7
      = ("![alt](photo.heic)".data).take 7 ∧
    List.IsSuffix (("![alt](photo.heic)".data).drop 17)
      (applyOp "![alt](photo.heic)".data (EditOp.mk 7 17 "photo.jpg".data)) ∧
    List.IsSuffix
      (("![alt](photo.heic)".data).drop (min 18 ("![alt](photo.heic)".data).length))
      (applyOp "![alt](photo.heic)".data (EditOp.mk 7 17 "photo.jpg".data)) :=
  (c5_inline_ref_policy "![alt](photo.heic)".data
      (RefRec.mk "photo.heic".data 0 18) heicResolve
      (lookupRepl [("photo.heic".data, "photo.jpg".data)]) heicDisplay).1
    (EditOp.mk 7 17 "photo.jpg".data) (by decide)

/-- The character class of the boundary test `/[a-z0-9]/i` in
`wikilinkEntities` (ASCII letters and digits only). -/
def isWordCharJS (c : Char) : Bool :=
  (97 ≤ c.toNat && c.toNat ≤ 122) || (65 ≤ c.toNat && c.toNat ≤ 90) ||
    (48 ≤ c.toNat && c.toNat ≤ 57)

/-- `text.toLowerCase()` (ASCII model). -/
def lowerStr (l : List Char) : List Char := l.map Char.toLower

/-- One scan step of the regex `\[\[[^\]]+\]\]` at the current position:
`some n` when a wikilink of total length `n` starts right here ( `[[`, a
maximal nonempty run of non-`]` characters, then `]]` ), `none` otherwise.
`scanRangesGo` carries fuel for structural recursion; `text.length + 1`
steps always suffice because every step consumes at least one character. -/
def scanRangesGo : Nat → Nat → List Char → List (Nat × Nat)
  | 0, _, _ => []
  | _ + 1, _, [] => []
  | fuel + 1, i, '[' :: '[' :: t =>
      let m := (t.takeWhile (fun c => c ≠ ']')).length
      if 1 ≤ m && t.get? m == some ']' && t.get? (m + 1) == some ']' then
        (i, i + m + 4) :: scanRangesGo fuel (i + m + 4) (t.drop (m + 2))
      else scanRangesGo fuel (i + 1) ('[' :: t)
  | fuel + 1, i, _ :: rest => scanRangesGo fuel (i + 1) rest

/-- `computeWikilinkRanges(text)`: all non-overlapping matches of
`/\[\[[^\]]+\]\]/g`, left to right, as `[start, end)` offset pairs. -/
def computeWikilinkRanges (text : List Char) : List (Nat × Nat) :=
  scanRangesGo (text.length + 1) 0 text

/-- `inExistingLink(index, linkRanges)`: whether `index` lies within any
existing wikilink range (`index >= s && index < e`). -/
def inExistingLink (index : Nat) (linkRanges : List (Nat × Nat)) : Bool :=
  linkRanges.any (fun r => r.1 ≤ index && index < r.2)

/-- The scan loop of `wikilinkEntities` (lines 104-134, the `while` over
`lower.indexOf`): find the first occurrence of `key` at or after `start`
whose neighbours are not word characters and that is not inside an existing
link; otherwise continue from `idx + key.length`.  Fuel makes the recursion
structural; `lower.length + 1` steps suffice for every nonempty key since
the search position strictly increases. -/
def findValidIdxGo (lower key : List Char) (ranges : List (Nat × Nat)) :
    Nat → Nat → Option Nat
  | 0, _ => none
  | fuel + 1, start =>
      match indexOfFrom lower key start with
      | none => none
      | some idx =>
          let isWordBefore :=
            if idx = 0 then false
            else match lower.get? (idx - 1) with
              | some c => isWordCharJS c
              | none => false
          let isWordAfter :=
            match lower.get? (idx + key.length) with
            | some c => isWordCharJS c
            | none => false
          if !isWordBefore && !isWordAfter && !inExistingLink idx ranges then
            some idx
          else findValidIdxGo lower key ranges fuel (idx + key.length)

def findValidIdx (lower key : List Char) (ranges : List (Nat × Nat)) :
    Option Nat :=
  findValidIdxGo lower key ranges (lower.length + 1) 0

/-- One recorded annotation event (specification instrumentation): which
canonical name was linked, at which index, and what the text was just
before the insertion.  The returned text of the annotator does not depend
on this field. -/
structure AnnEvent where
  canonical : List Char
  idx : Nat
  textBefore : List Char
deriving DecidableEq

/-- The mutable state of the `wikilinkEntities` loop: the accumulated text,
its lowercase copy, the canonicals linked so far, the current link ranges,
plus the recorded annotation events. -/
structure AnnState where
  text : List Char
  lower : List Char
  linked : List (List Char)
  ranges : List (Nat × Nat)
  events : List AnnEvent
deriving DecidableEq

/-- `entityMap.get(key)!`: first-match lookup in the entity association
list (`Map` registration is first-wins). -/
def lookupCanonical (pairs : List (List Char × List Char))
    (key : List Char) : List Char :=
  match pairs.find? (fun p => p.1 == key) with
  | some p => p.2
  | none => []

/-- The body of the `for (const key of keys)` loop of `wikilinkEntities`
(lines 100-135): skip an already-linked canonical; otherwise annotate the
first valid occurrence of `key`, rebuild `lower`, mark the canonical,
recompute the link ranges, and record the event. -/
def stepKey (pairs : List (List Char × List Char)) (st : AnnState)
    (key : List Char) : AnnState :=
  let canonical := lookupCanonical pairs key
  if canonical ∈ st.linked then st
  else
    match findValidIdx st.lower key st.ranges with
    | none => st
    | some idx =>
        let original := extractSeg st.text idx (idx + key.length)
        let replacement :=
          if original = canonical then
            ['[', '['] ++ canonical ++ [']', ']']
          else
            ['[', '['] ++ canonical ++ ['|'] ++ original ++ [']', ']']
        let newText := st.text.take idx ++ replacement ++
          st.text.drop (idx + key.length)
        { text := newText
          lower := lowerStr newText
          linked := canonical :: st.linked
          ranges := computeWikilinkRanges newText
          events := st.events ++ [⟨canonical, idx, st.text⟩] }

/-- First-wins key de-duplication, preserving insertion order (the `Map`
key semantics of `buildEntityMap`). -/
def dedupKeys : List (List Char) → List (List Char)
  | [] => []
  | k :: rest => k :: (dedupKeys rest).filter (fun x => x ≠ k)

/-- `Array.from(entityMap.keys()).filter(k => k.length > 1)
.sort((a, b) => b.length - a.length)` (lines 89-91): unique keys in
registration order, one-character noise dropped, stably sorted by
descending length so longer names are tried first. -/
def lenDesc (a b : List Char) : Prop := b.length ≤ a.length

instance : DecidableRel lenDesc := fun a b => Nat.decLe b.length a.length

def annotKeys (pairs : List (List Char × List Char)) : List (List Char) :=
  List.insertionSort lenDesc
    ((dedupKeys (pairs.map Prod.fst)).filter (fun k => 1 < k.length))

/-- `wikilinkEntities` (lines 84-138) as a pure state transformer over the
entity map (an association list fed by the external corpus enumerator:
lowercased alias or basename to canonical basename) and the transcription
text.  An empty map leaves the fold with its initial state, matching the
early `return content`. -/
def wikilinkRun (pairs : List (List Char × List Char))
    (content : List Char) : AnnState :=
  (annotKeys pairs).foldl (stepKey pairs)
    ⟨content, lowerStr content, [], computeWikilinkRanges content, []⟩

/-- The returned text of `wikilinkEntities`. -/
def wikilinkEntitiesModel (pairs : List (List Char × List Char))
    (content : List Char) : List Char :=
  (wikilinkRun pairs content).text

theorem indexOfFrom_bound {l key : List Char} {s idx : Nat}
    (hk : key ≠ []) (h : indexOfFrom l key s = some idx) :
    idx + key.length ≤ l.length := by
  unfold indexOfFrom at h
  cases hf : firstSubIdx key (l.drop s) with
  | none => rw [hf] at h; exact absurd h (by simp)
  | some j =>
      rw [hf] at h
      obtain rfl : j + s = idx := by simpa using h
      have hb := firstSubIdx_bound hf
      rw [List.length_drop] at hb
      have hK : 1 ≤ key.length := by
        cases hkl : key with
        | nil => exact absurd hkl hk
        | cons a t => simp
      omega

theorem findValidIdxGo_not_inLink {lower key : List Char}
    {ranges : List (Nat × Nat)} {fuel start idx : Nat}
    (h : findValidIdxGo lower key ranges fuel start = some idx) :
    inExistingLink idx ranges = false := by
  induction fuel generalizing start with
  | zero => exact absurd h (by simp [findValidIdxGo])
  | succ fuel ih =>
      unfold findValidIdxGo at h
      cases hf : indexOfFrom lower key start with
      | none => rw [hf] at h; exact absurd h (by simp)
      | some j =>
          rw [hf] at h
          simp only [] at h
          by_cases hcond : (!(if j = 0 then false
              else match lower.get? (j - 1) with
                | some c => isWordCharJS c
                | none => false) &&
            !(match lower.get? (j + key.length) with
                | some c => isWordCharJS c
                | none => false) && !inExistingLink j ranges) = true
          · rw [if_pos hcond] at h
            obtain rfl : j = idx := by simpa using h
            simp only [Bool.and_eq_true, Bool.not_eq_true'] at hcond
            exact hcond.2
          · rw [if_neg hcond] at h
            exact ih h

theorem findValidIdxGo_bound {lower key : List Char}
    {ranges : List (Nat × Nat)} {fuel start idx : Nat}
    (hk : key ≠ [])
    (h : findValidIdxGo lower key ranges fuel start = some idx) :
    idx + key.length ≤ lower.length := by
  induction fuel generalizing start with
  | zero => exact absurd h (by simp [findValidIdxGo])
  | succ fuel ih =>
      unfold findValidIdxGo at h
      cases hf : indexOfFrom lower key start with
      | none => rw [hf] at h; exact absurd h (by simp)
      | some j =>
          rw [hf] at h
          simp only [] at h
          by_cases hcond : (!(if j = 0 then false
              else match lower.get? (j - 1) with
                | some c => isWordCharJS c
                | none => false) &&
            !(match lower.get? (j + key.length) with
                | some c => isWordCharJS c
                | none => false) && !inExistingLink j ranges) = true
          · rw [if_pos hcond] at h
            obtain rfl : j = idx := by simpa using h
            exact indexOfFrom_bound hk hf
          · rw [if_neg hcond] at h
            exact ih h

/-- Loop invariant of `wikilinkEntities`: the lowercase copy and the link
ranges track the accumulated text, lengths account for the inserted
brackets, events carry linked canonicals without repetition, and every
recorded insertion was guarded against the link ranges of the text as it
stood at that moment. -/
def StInv (content : List Char) (st : AnnState) : Prop :=
  st.lower = lowerStr st.text ∧
  st.ranges = computeWikilinkRanges st.text ∧
  content.length + 4 * st.events.length ≤ st.text.length ∧
  (st.events = [] → st.text = content) ∧
  (st.events.map (fun ev => ev.canonical)).Nodup ∧
  (∀ ev ∈ st.events, ev.canonical ∈ st.linked) ∧
  (∀ ev ∈ st.events, inExistingLink ev.idx
    (computeWikilinkRanges ev.textBefore) = false)

theorem stepKey_inv (pairs : List (List Char × List Char))
    (content key : List Char) (st : AnnState)
    (hk : 1 < key.length) (h : StInv content st) :
    StInv content (stepKey pairs st key) := by
  obtain ⟨hlow, hran, hlen, hemp, hnd, hlink, hguard⟩ := h
  unfold stepKey
  by_cases hcan : lookupCanonical pairs key ∈ st.linked
  · rw [if_pos hcan]
    exact ⟨hlow, hran, hlen, hemp, hnd, hlink, hguard⟩
  rw [if_neg hcan]
  cases hfind : findValidIdx st.lower key st.ranges with
  | none =>
      exact ⟨hlow, hran, hlen, hemp, hnd, hlink, hguard⟩
  | some idx =>
      simp only []
      have hkne : key ≠ [] := by
        cases hkl : key with
        | nil => rw [hkl] at hk; simp at hk
        | cons a t => simp
      have hbound : idx + key.length ≤ st.lower.length :=
        findValidIdxGo_bound hkne hfind
      have htlen : st.lower.length = st.text.length := by
        rw [hlow]
        simp [lowerStr]
      rw [htlen] at hbound
      have hseg : (extractSeg st.text idx (idx + key.length)).length
          = key.length := by
        rw [seg_len_eq]
        omega
      have hrepl : key.length + 4 ≤
          (if extractSeg st.text idx (idx + key.length) = lookupCanonical pairs key then
            ['[', '['] ++ lookupCanonical pairs key ++ [']', ']']
          else
            ['[', '['] ++ lookupCanonical pairs key ++ ['|'] ++
              extractSeg st.text idx (idx + key.length) ++ [']', ']']).length := by
        by_cases he : extractSeg st.text idx (idx + key.length)
            = lookupCanonical pairs key
        · rw [if_pos he, ← he]
          simp [hseg]
        · rw [if_neg he]
          simp [hseg, List.length_append]
          omega
      refine ⟨rfl, rfl, ?_, ?_, ?_, ?_, ?_⟩
      · simp only [List.length_append, List.length_take, List.length_drop,
          List.length_cons, List.length_nil]
        rw [Nat.min_def]
        split <;> omega
      · intro hfalse
        simp at hfalse
      · simp only [List.map_append]
        rw [List.nodup_append]
        refine ⟨hnd, by simp, ?_⟩
        intro c hc1 hc2
        simp only [List.map_cons, List.map_nil, List.mem_singleton] at hc2
        subst hc2
        simp only [List.mem_map] at hc1
        obtain ⟨ev, hev, heq⟩ := hc1
        exact hcan (heq ▸ hlink ev hev)
      · intro ev hev
        simp only [List.mem_append, List.mem_singleton] at hev
        rcases hev with hev | rfl
        · exact List.mem_cons_of_mem _ (hlink ev hev)
        · exact List.mem_cons_self _ _
      · intro ev hev
        simp only [List.mem_append, List.mem_singleton] at hev
        rcases hev with hev | rfl
        · exact hguard ev hev
        · have := findValidIdxGo_not_inLink hfind
          rw [hran] at this
          exact this

theorem foldl_stepKey_inv (pairs : List (List Char × List Char))
    (content : List Char) (keys : List (List Char)) (st : AnnState)
    (hkeys : ∀ k ∈ keys, 1 < k.length) (h : StInv content st) :
    StInv content (keys.foldl (stepKey pairs) st) := by
  induction keys generalizing st with
  | nil => exact h
  | cons k rest ih =>
      exact ih (stepKey pairs st k)
        (fun x hx => hkeys x (by simp [hx]))
        (stepKey_inv pairs content k st (hkeys k (by simp)) h)

theorem annotKeys_long (pairs : List (List Char × List Char))
    (k : List Char) (hk : k ∈ annotKeys pairs) : 1 < k.length := by
  unfold annotKeys at hk
  have hmem := (List.perm_insertionSort lenDesc _).mem_iff.mp hk
  have := List.of_mem_filter hmem
  exact of_decide_eq_true this

theorem wikilinkRun_inv (pairs : List (List Char × List Char))
    (content : List Char) : StInv content (wikilinkRun pairs content) := by
  unfold wikilinkRun
  apply foldl_stepKey_inv pairs content (annotKeys pairs) _
    (fun k hk => annotKeys_long pairs k hk)
  exact ⟨rfl, rfl, by simp, fun _ => rfl, by simp, by simp, by simp⟩

theorem length_filter_le_one_of_nodup_map {α β : Type} [DecidableEq β]
    (f : α → β) (c : β) (l : List α) (h : (l.map f).Nodup) :
    (l.filter (fun x => f x = c)).length ≤ 1 := by
  induction l with
  | nil => simp
  | cons a t ih =>
      simp only [List.map_cons, List.nodup_cons] at h
      obtain ⟨hna, hnd⟩ := h
      by_cases hfa : f a = c
      · rw [List.filter_cons_of_pos (by simp [hfa])]
        have ht : t.filter (fun x => f x = c) = [] := by
          rw [List.filter_eq_nil_iff]
          intro x hx
          simp only [decide_eq_true_eq]
          intro hfx
          exact hna (by
            have : f x = f a := by rw [hfx, hfa]
            rw [← this]
            exact List.mem_map_of_mem f hx)
        simp [ht]
      · rw [List.filter_cons_of_neg (by simp [hfa])]
        exact ih hnd

/-- C8: `wikilinkEntities` never inserts an annotation at a position lying
inside an existing `[[...]]` link range, including ranges created by
annotations inserted earlier in the same call: every recorded insertion was
checked against the link ranges recomputed from the text as it stood at
that moment.  In particular, with entity "AlreadyLinked" occurring only as
`[[AlreadyLinked]]`, the text comes back unchanged with no nested link. -/
theorem c8_never_inside_links :
    (∀ (pairs : List (List Char × List Char)) (content : List Char)
      (ev : AnnEvent), ev ∈ (wikilinkRun pairs content).events →
      inExistingLink ev.idx (computeWikilinkRanges ev.textBefore) = false) ∧
    wikilinkEntitiesModel [("alreadylinked".data, "AlreadyLinked".data)]
        "Intro [[AlreadyLinked]] outro".data
      = "Intro [[AlreadyLinked]] outro".data := by
  constructor
  · intro pairs content ev hev
    exact (wikilinkRun_inv pairs content).2.2.2.2.2.2 ev hev
  · decide

theorem c8_never_inside_links_witness :
    inExistingLink 0 (computeWikilinkRanges "Rob x".data) = false :=
  c8_never_inside_links.1 [("rob".data, "Rob".data)] "Rob x".data
    ⟨"Rob".data, 0, "Rob x".data⟩ (by decide)

/-- C9 as frozen is refuted: on "Rob likes Rob" the first call annotates
the first occurrence, and the second call, run on that output, finds the
second, still-unlinked occurrence and adds a second link for the already
annotated canonical "Rob", changing the text again. -/
theorem c9_counterexample :
    "Rob".data ∈ ((wikilinkRun [("rob".data, "Rob".data)]
        "Rob likes Rob".data).events.map (fun ev => ev.canonical)) ∧
    "Rob".data ∈ ((wikilinkRun [("rob".data, "Rob".data)]
        (wikilinkEntitiesModel [("rob".data, "Rob".data)]
          "Rob likes Rob".data)).events.map (fun ev => ev.canonical)) ∧
    wikilinkEntitiesModel [("rob".data, "Rob".data)]
        (wikilinkEntitiesModel [("rob".data, "Rob".data)] "Rob likes Rob".data)
      ≠ wikilinkEntitiesModel [("rob".data, "Rob".data)] "Rob likes Rob".data := by
  refine ⟨by decide, by decide, by decide⟩

/-- C9 (amended): within one call, `wikilinkEntities` annotates each
canonical entity at most once (at most one recorded insertion per canonical
name); the guarantee does not extend across sequential calls on the
accumulated text when the entity has another valid occurrence outside
existing link ranges. -/
theorem c9_once_per_call (pairs : List (List Char × List Char))
    (content canonical : List Char) :
    ((wikilinkRun pairs content).events.filter
      (fun ev => ev.canonical = canonical)).length ≤ 1 :=
  length_filter_le_one_of_nodup_map (fun ev => ev.canonical) canonical
    (wikilinkRun pairs content).events
    (wikilinkRun_inv pairs content).2.2.2.2.1

/-- C10: the string returned by `wikilinkEntities` is never shorter than
the input: every applied annotation adds at least 4 characters (so the
output length is at least the input length plus four per insertion), and
when no annotation is applied the input text is returned exactly. -/
theorem c10_length_monotone (pairs : List (List Char × List Char)) (content : List Char) :
    content.length ≤ (wikilinkEntitiesModel pairs content).length ∧
    content.length + 4 * (wikilinkRun pairs content).events.length
      ≤ (wikilinkEntitiesModel pairs content).length ∧
    ((wikilinkRun pairs content).events = [] →
      wikilinkEntitiesModel pairs content = content) := by
  have h := wikilinkRun_inv pairs content
  have h2 := h.2.2.1
  refine ⟨?_, h2, h.2.2.2.1⟩
  show content.length ≤ (wikilinkRun pairs content).text.length
  omega

theorem c10_length_monotone_witness :
    wikilinkEntitiesModel [] "ab".data = "ab".data :=
  (c10_length_monotone [] "ab".data).2.2 (by decide)


/-- C7: with the entity index mapping "robert smith" to "Robert Smith" and
"rob" to "Rob" (no alias overlap) and input "Rob met Robert Smith
yesterday", keys are tried longest first, so "Robert Smith" is matched as
one unit at offset 8 and "Rob" is annotated at offset 0; neither match
consumes the other's characters. -/
theorem c7_rob_robert_smith :
    wikilinkEntitiesModel
        [("robert smith".data, "Robert Smith".data), ("rob".data, "Rob".data)]
        "Rob met Robert Smith yesterday".data
      = "[[Rob]] met [[Robert Smith]] yesterday".data ∧
    ((wikilinkRun
        [("robert smith".data, "Robert Smith".data), ("rob".data, "Rob".data)]
        "Rob met Robert Smith yesterday".data).events.map
      (fun ev => (ev.canonical, ev.idx)))
      = [("Robert Smith".data, 8), ("Rob".data, 0)] := by
  refine ⟨by decide, by decide⟩
